import Mathlib

/-!
# Verification of the `rallocator` bump allocator

Shallow embedding of the `rallocator` Rust crate (files `src/align.rs`,
`src/block.rs`, `src/bump.rs`) and proofs about its specification claims.

Modelling conventions:

* The target platform is 64-bit: `size_of::<usize>() = 8`, so the `align!`
  macro rounds to multiples of 8, `usize::MAX = 2^64 - 1`, and
  `size_of::<Block>() = 24` (documented as "24 bytes" in the crate docs).
* `usize` values are modelled as `Nat`; where the Rust code can wrap
  (the addition inside `align_to!`) an explicit `% 2^64` is inserted.
* Raw pointers are modelled as `Nat` addresses, with `Option Nat` for
  possibly-null pointers (`none` = null).
* The process heap of block headers is modelled as an association list
  from header addresses to `Block` records, plus the current program
  break; `sbrk` is modelled as moving the break and returning the old
  one, with an explicit success/failure flag for growth requests.
-/

namespace Rallocator

/-- `size_of::<usize>()` on the 64-bit target: the machine word size. -/
def wordSize : Nat := 8

/-- `usize::MAX` on the 64-bit target. -/
def usizeMax : Nat := 2 ^ 64 - 1

/-- The `align_to!` macro from `src/align.rs`:
`($value + $align - 1) & !($align - 1)`, computed in `usize` arithmetic.
Bitwise NOT on `usize` is subtraction from the all-ones word, and the
addition may wrap, hence the `% 2^64`. -/
def align_to (value al : Nat) : Nat :=
  ((value + al - 1) % 2 ^ 64) &&& (usizeMax - (al - 1))

/-- The `align!` macro from `src/align.rs`: round up to the machine word. -/
def align_word (value : Nat) : Nat :=
  align_to value wordSize

/-! ## Arithmetic characterization of the bitwise alignment code -/

/-- Clearing the low `k` bits of `x < 2^64` rounds `x` down to a multiple
of `2^k`. -/
theorem land_mask (x k : Nat) (hx : x < 2 ^ 64) (hk : k ≤ 64) :
    x &&& (2 ^ 64 - 2 ^ k) = x / 2 ^ k * 2 ^ k := by
  have hmask : 2 ^ 64 - 2 ^ k = (2 ^ (64 - k) - 1) <<< k := by
    rw [Nat.shiftLeft_eq, Nat.sub_mul, one_mul, ← Nat.pow_add]
    rw [Nat.sub_add_cancel hk]
  have hdiv : x / 2 ^ k * 2 ^ k = x >>> k <<< k := by
    rw [Nat.shiftRight_eq_div_pow, Nat.shiftLeft_eq]
  rw [hmask, hdiv]
  apply Nat.eq_of_testBit_eq
  intro i
  rw [Nat.testBit_land, Nat.testBit_shiftLeft, Nat.testBit_shiftLeft,
      Nat.testBit_two_pow_sub_one, Nat.testBit_shiftRight]
  by_cases hki : k ≤ i
  · by_cases hi64 : i < 64
    · have h1 : i - k < 64 - k := by omega
      have h2 : k + (i - k) = i := by omega
      simp [hki, h1, h2]
    · have hxle : 2 ^ 64 ≤ 2 ^ i := Nat.pow_le_pow_right (by norm_num) (by omega)
      have hfalse : x.testBit i = false := Nat.testBit_lt_two_pow (lt_of_lt_of_le hx hxle)
      have h1 : ¬(i - k < 64 - k) := by omega
      have h2 : k + (i - k) = i := by omega
      simp [hki, h1, h2, hfalse]
  · simp [hki]

/-- For a power-of-two alignment that fits the word, and in the absence of
overflow, the bitwise `align_to!` computes the usual arithmetic round-up. -/
theorem align_to_eq (v a k : Nat) (ha : a = 2 ^ k) (hof : v + a ≤ 2 ^ 64) :
    align_to v a = (v + a - 1) / a * a := by
  subst ha
  have h1 : 1 ≤ 2 ^ k := Nat.one_le_two_pow
  have hk : k ≤ 64 := by
    have : 2 ^ k ≤ 2 ^ 64 := by omega
    exact (Nat.pow_le_pow_iff_right (by norm_num)).mp this
  have hlt : v + 2 ^ k - 1 < 2 ^ 64 := by omega
  have hmod : (v + 2 ^ k - 1) % 2 ^ 64 = v + 2 ^ k - 1 := Nat.mod_eq_of_lt hlt
  have hmask : usizeMax - (2 ^ k - 1) = 2 ^ 64 - 2 ^ k := by
    simp only [usizeMax]
    omega
  rw [align_to, hmod, hmask, land_mask _ _ hlt hk]

/-- The arithmetic round-up is at least the value being rounded. -/
theorem le_roundup (v a : Nat) (h0 : 0 < a) : v ≤ (v + a - 1) / a * a := by
  have h1 := Nat.div_add_mod (v + a - 1) a
  have h2 : (v + a - 1) % a < a := Nat.mod_lt _ h0
  have h3 : a * ((v + a - 1) / a) = v + a - 1 - (v + a - 1) % a :=
    Nat.eq_sub_of_add_eq h1
  rw [Nat.mul_comm] at h3
  rw [h3]
  have h4 : (v + a - 1) % a ≤ a - 1 := by omega
  calc v = v + a - 1 - (a - 1) := by omega
    _ ≤ v + a - 1 - (v + a - 1) % a := Nat.sub_le_sub_left h4 _

/-- The value rounded up is at least `v` (bitwise form). -/
theorem le_align_to (v a k : Nat) (ha : a = 2 ^ k) (hof : v + a ≤ 2 ^ 64) :
    v ≤ align_to v a := by
  rw [align_to_eq v a k ha hof]
  exact le_roundup v a (ha ▸ Nat.pos_pow_of_pos k (by norm_num))

/-- The value rounded up overshoots by less than the alignment. -/
theorem align_to_le (v a k : Nat) (ha : a = 2 ^ k) (hof : v + a ≤ 2 ^ 64) :
    align_to v a ≤ v + a - 1 := by
  rw [align_to_eq v a k ha hof]
  exact Nat.div_mul_le_self _ _

/-- The rounded value is a multiple of the alignment. -/
theorem align_to_mod (v a k : Nat) (ha : a = 2 ^ k) (hof : v + a ≤ 2 ^ 64) :
    align_to v a % a = 0 := by
  rw [align_to_eq v a k ha hof]
  exact Nat.mul_mod_left _ _

/-! ## Data model (`src/block.rs`, `src/bump.rs`) -/

/-- `size_of::<Block>()` on the 64-bit target: two 8-byte fields plus a
`bool`, padded to 24 bytes (the crate docs state "24 bytes"). -/
def header_size : Nat := 24

/-- The `Block` header from `src/block.rs`.  `next` is the address of the
next header in the list (`none` = null pointer). -/
structure Block where
  size : Nat
  is_free : Bool
  next : Option Nat
deriving Repr, DecidableEq

/-- The `SearchMode` enum from `src/bump.rs`. -/
inductive SearchMode where
  | FirstFit
  | NextFit
  | BestFit
deriving Repr, DecidableEq

/-- The `BumpAllocator` struct from `src/bump.rs`, together with the
process heap it bookkeeps: `mem` stores the block headers (address ↦
header) and `brk` is the current program break.  `first`, `last` and
`last_search` are nullable pointers, modelled as `Option Nat`. -/
structure BumpAllocator where
  first : Option Nat
  last : Option Nat
  search_mode : SearchMode
  last_search : Option Nat
  mem : List (Nat × Block)
  brk : Nat
deriving Repr, DecidableEq

/-- `BumpAllocator::new()` (all fields null, `FirstFit`), parameterized by
the initial program break of the process. -/
def BumpAllocator.new (brk : Nat) : BumpAllocator :=
  { first := none, last := none, search_mode := SearchMode.FirstFit,
    last_search := none, mem := [], brk := brk }

/-- Read the header stored at address `a` (dereference a `*mut Block`). -/
def lookupBlock (mem : List (Nat × Block)) (a : Nat) : Option Block :=
  (mem.find? fun p => p.1 = a).map Prod.snd

/-- Write a whole header at address `a` (the three field writes that
`allocate` performs on a fresh header): update the binding if the address
is already tracked, otherwise append the new header. -/
def storeBlock : List (Nat × Block) → Nat → Block → List (Nat × Block)
  | [], a, b => [(a, b)]
  | p :: rest, a, b =>
      if p.1 = a then (a, b) :: rest else p :: storeBlock rest a b

/-- The field write `(*a).next = v`. -/
def setNext (mem : List (Nat × Block)) (a : Nat) (v : Option Nat) :
    List (Nat × Block) :=
  mem.map fun p => if p.1 = a then (p.1, { p.2 with next := v }) else p

/-- The field write `(*a).is_free = true`. -/
def setFree (mem : List (Nat × Block)) (a : Nat) : List (Nat × Block) :=
  mem.map fun p => if p.1 = a then (p.1, { p.2 with is_free := true }) else p

/-! ## `BumpAllocator::allocate` -/

/-- The byte count passed to `sbrk` by `allocate`:
`align!(header_size + layout.size() + (align - 1))`. -/
def size_for_sbrk (size al : Nat) : Nat :=
  align_word (header_size + size + (al - 1))

/-- `BumpAllocator::allocate(layout)` for `layout = (size, al)`.

`sbrkOk` is the decision of the OS primitive: when `false`, `sbrk`
returns `(void*)-1` and `allocate` returns null; when `true`, `sbrk`
returns the old break and advances it by `size_for_sbrk`.  The result is
the returned pointer (`none` = null) and the post state. -/
def allocate (s : BumpAllocator) (size al : Nat) (sbrkOk : Bool) :
    Option Nat × BumpAllocator :=
  if !sbrkOk then
    -- sbrk returned (void*)-1: return ptr::null_mut() with nothing changed
    (none, s)
  else
    let raw_address := s.brk
    let brk1 := s.brk + size_for_sbrk size al
    let content_addr := align_to (raw_address + header_size) al
    let blockAddr := content_addr - header_size
    let blk : Block := { size := size, is_free := false, next := none }
    let mem1 := storeBlock s.mem blockAddr blk
    if s.first.isNone then
      (some content_addr,
        { s with mem := mem1, brk := brk1,
                 first := some blockAddr, last := some blockAddr })
    else
      -- (*self.last).next = block; self.last = block
      match s.last with
      | some l =>
          (some content_addr,
            { s with mem := setNext mem1 l (some blockAddr), brk := brk1,
                     last := some blockAddr })
      | none =>
          -- unreachable in any state produced by the code: `first` and
          -- `last` are null together; kept total by skipping the write
          (some content_addr,
            { s with mem := mem1, brk := brk1, last := some blockAddr })

/-! ## `BumpAllocator::deallocate` -/

/-- The predecessor walk in `deallocate`:
`while !(*current).next.is_null() && (*current).next != self.last`.
`fuel` bounds the walk (the Rust loop terminates because the list is
finite and acyclic; one step per stored header suffices). -/
def findPred (mem : List (Nat × Block)) (lst : Nat) :
    Nat → Nat → Nat
  | 0, current => current
  | fuel + 1, current =>
      match lookupBlock mem current with
      | none => current
      | some b =>
          match b.next with
          | none => current
          | some nxt =>
              if nxt = lst then current
              else findPred mem lst fuel nxt

/-- `BumpAllocator::deallocate(address)` (`none` = null pointer). -/
def deallocate (s : BumpAllocator) (address : Option Nat) : BumpAllocator :=
  match address with
  | none => s
  | some addr =>
      -- let block = self.find_block(address); (*block).is_free = true
      let blockAddr := addr - header_size
      let mem1 := setFree s.mem blockAddr
      if s.last ≠ some blockAddr then
        -- not the last block: only the is_free flag was written
        { s with mem := mem1 }
      else
        let s1 :=
          if s.first = s.last then
            { s with mem := mem1, first := none, last := none }
          else
            let start := s.first.getD 0
            { s with mem := mem1,
                     last := some (findPred mem1 blockAddr s.mem.length start) }
        -- let to_release = align!((*block).size + header_size + header_size)
        let bsize := ((lookupBlock mem1 blockAddr).getD
          { size := 0, is_free := true, next := none }).size
        let to_release := align_word (bsize + header_size + header_size)
        { s1 with brk := s1.brk - to_release }

/-! ## Search strategies (`find_free_block_*`)

The three searches traverse the `next`-chain that starts at `first`.  A
chain is embedded as the Lean list of its headers in traversal order;
block identity (pointer equality in Rust) is chain position, so the
searches return an `Option Nat` index (`none` = null).  The `last_search`
cursor of next-fit is likewise an optional chain position. -/

/-- Does a block satisfy `(*current).is_free && (*current).size >= size`? -/
def fits (size : Nat) (b : Block) : Bool :=
  b.is_free && size ≤ b.size

/-- The scanning loop shared by `find_free_block_first_fit` and both
passes of `find_free_block_next_fit`, over (position, header) pairs. -/
def scanLoop (size : Nat) : List (Nat × Block) → Option Nat
  | [] => none
  | (i, b) :: rest => if fits size b then some i else scanLoop size rest

/-- `BumpAllocator::find_free_block_first_fit`. -/
def find_free_block_first_fit (blocks : List Block) (size : Nat) :
    Option Nat :=
  scanLoop size blocks.enum

/-- `BumpAllocator::find_free_block_next_fit`.  Input `cursor` is the
`last_search` field; the result pairs the found position with the new
value of `last_search`. -/
def find_free_block_next_fit (blocks : List Block) (cursor : Option Nat)
    (size : Nat) : Option Nat × Option Nat :=
  -- let start = if last_search.is_null() { first } else { last_search }
  let start := cursor.getD 0
  -- first pass: from start to the end of the list
  match scanLoop size (blocks.enum.drop start) with
  | some i => (some i, some i)
  | none =>
      -- second pass: wrap, from first up to (not including) start
      match scanLoop size (blocks.enum.take start) with
      | some i => (some i, some i)
      | none => (none, cursor)

/-- The loop of `find_free_block_best_fit`, carrying the `best` candidate
and `best_size` accumulators. -/
def bestFitLoop (size : Nat) :
    List (Nat × Block) → Option Nat → Nat → Option Nat
  | [], best, _ => best
  | (i, b) :: rest, best, best_size =>
      if b.is_free && size ≤ b.size && b.size < best_size then
        if b.size = size then
          -- perfect fit: return immediately
          some i
        else
          bestFitLoop size rest (some i) b.size
      else
        bestFitLoop size rest best best_size

/-- `BumpAllocator::find_free_block_best_fit`: `best` starts null and
`best_size` starts at `usize::MAX`. -/
def find_free_block_best_fit (blocks : List Block) (size : Nat) :
    Option Nat :=
  bestFitLoop size blocks.enum none usizeMax

/-! ## Concrete example states used by several theorems -/

/-- The state after `allocate(8, align 8)` twice from an empty allocator
whose initial break is 1000: headers at 1000 and 1040, payloads at 1024
and 1064, break at 1080. -/
def twoBlockState : BumpAllocator :=
  (allocate (allocate (BumpAllocator.new 1000) 8 8 true).2 8 8 true).2

/-- `twoBlockState` after deallocating the second (tail) payload 1064. -/
def afterTailFree : BumpAllocator :=
  deallocate twoBlockState (some 1064)

/-! ## Heap-store lemmas -/

/-- Reading back a header just stored at `a`. -/
theorem lookupBlock_storeBlock_self (mem : List (Nat × Block)) (a : Nat)
    (b : Block) : lookupBlock (storeBlock mem a b) a = some b := by
  induction mem with
  | nil => simp [storeBlock, lookupBlock]
  | cons p rest ih =>
      by_cases h : p.1 = a
      · simp [storeBlock, h, lookupBlock]
      · simpa [storeBlock, h, lookupBlock] using ih

/-- `setNext` leaves every other address unchanged. -/
theorem lookupBlock_setNext_ne (mem : List (Nat × Block)) (l : Nat)
    (v : Option Nat) (a : Nat) (h : a ≠ l) :
    lookupBlock (setNext mem l v) a = lookupBlock mem a := by
  induction mem with
  | nil => rfl
  | cons p rest ih =>
      by_cases hp : p.1 = l
      · simp [setNext, hp, lookupBlock, Ne.symm h] at ih ⊢
        exact ih
      · by_cases ha : p.1 = a
        · simp [setNext, hp, lookupBlock, ha, h]
        · simp [setNext, hp, lookupBlock, ha] at ih ⊢
          exact ih

/-- `setFree` leaves every other address unchanged. -/
theorem lookupBlock_setFree_ne (mem : List (Nat × Block)) (l a : Nat)
    (h : a ≠ l) : lookupBlock (setFree mem l) a = lookupBlock mem a := by
  induction mem with
  | nil => rfl
  | cons p rest ih =>
      by_cases hp : p.1 = l
      · simp [setFree, hp, lookupBlock, Ne.symm h] at ih ⊢
        exact ih
      · by_cases ha : p.1 = a
        · simp [setFree, hp, lookupBlock, ha, h]
        · simp [setFree, hp, lookupBlock, ha] at ih ⊢
          exact ih

/-- `setFree` at `a` flips exactly the `is_free` flag of the header at
`a`. -/
theorem lookupBlock_setFree_self (mem : List (Nat × Block)) (a : Nat) :
    lookupBlock (setFree mem a) a =
      (lookupBlock mem a).map fun b => { b with is_free := true } := by
  induction mem with
  | nil => rfl
  | cons p rest ih =>
      by_cases hp : p.1 = a
      · simp [setFree, hp, lookupBlock]
      · simp [setFree, hp, lookupBlock] at ih ⊢
        exact ih

/-! ## Shape of a successful allocation -/

/-- On success, `allocate` returns the `content_addr` computed from the
old break. -/
theorem allocate_true_fst (s : BumpAllocator) (size al : Nat) :
    (allocate s size al true).1 =
      some (align_to (s.brk + header_size) al) := by
  simp only [allocate, Bool.not_true, Bool.false_eq_true, if_false]
  split
  · rfl
  · split <;> rfl

/-- On success, `allocate` advances the break by `size_for_sbrk`. -/
theorem allocate_true_brk (s : BumpAllocator) (size al : Nat) :
    (allocate s size al true).2.brk = s.brk + size_for_sbrk size al := by
  simp only [allocate, Bool.not_true, Bool.false_eq_true, if_false]
  split
  · rfl
  · split <;> rfl

/-- On success, `allocate` installs the new header as `last`. -/
theorem allocate_true_last (s : BumpAllocator) (size al : Nat) :
    (allocate s size al true).2.last =
      some (align_to (s.brk + header_size) al - header_size) := by
  simp only [allocate, Bool.not_true, Bool.false_eq_true, if_false]
  split
  · rfl
  · split <;> rfl

/-- `allocate` never touches `search_mode` or `last_search`, and the new
header is readable at `content_addr - header_size` provided the old
`last` header (if any) lives at a different address. -/
theorem allocate_true_mem (s : BumpAllocator) (size al : Nat)
    (h : ∀ l, s.last = some l →
      l ≠ align_to (s.brk + header_size) al - header_size) :
    lookupBlock (allocate s size al true).2.mem
        (align_to (s.brk + header_size) al - header_size) =
      some { size := size, is_free := false, next := none } := by
  simp only [allocate, Bool.not_true, Bool.false_eq_true, if_false]
  split
  · exact lookupBlock_storeBlock_self _ _ _
  · split
    case _ l heq =>
      rw [lookupBlock_setNext_ne _ _ _ _ (Ne.symm (h l heq))]
      exact lookupBlock_storeBlock_self _ _ _
    case _ =>
      exact lookupBlock_storeBlock_self _ _ _

/-! ## Claim theorems -/

/-- **C6.** Whenever the heap-growth primitive fails during `allocate`,
`allocate` returns the null pointer and the allocator state is completely
unchanged: `first`, `last`, `search_mode` and `last_search` keep their
prior values and no partially initialized header is linked into the
block list (the whole state, header store included, is the prior one). -/
theorem C6_allocate_failure_no_partial_state
    (s : BumpAllocator) (size al : Nat) :
    (allocate s size al false).1 = none ∧
    (allocate s size al false).2 = s :=
  ⟨rfl, rfl⟩

/-- **C10.** `deallocate` never modifies the `search_mode` field or the
`last_search` cursor, for every input pointer — in particular a `NextFit`
cursor pointing at an unlinked tail block is left pointing at it. -/
theorem C10_deallocate_preserves_search_state
    (s : BumpAllocator) (address : Option Nat) :
    (deallocate s address).search_mode = s.search_mode ∧
    (deallocate s address).last_search = s.last_search := by
  cases address with
  | none => exact ⟨rfl, rfl⟩
  | some addr =>
      simp only [deallocate]
      split
      · exact ⟨rfl, rfl⟩
      · split <;> exact ⟨rfl, rfl⟩

/-- **C2 (code bug).** At allocation, `allocate(8, align 8)` reserves
`align!(header_size + 8 + 7) = 40` bytes, but deallocating that tail
block releases `align!(8 + header_size + header_size) = 56` bytes: the
code double-counts the header instead of releasing exactly what was
reserved.  From break 1000, the break after alloc+free is 984, not the
original 1000 the claim (and the spec) require. -/
theorem C2_shrink_releases_wrong_amount :
    size_for_sbrk 8 8 = 40 ∧
    (allocate (BumpAllocator.new 1000) 8 8 true).1 = some 1024 ∧
    (allocate (BumpAllocator.new 1000) 8 8 true).2.brk = 1040 ∧
    (deallocate (allocate (BumpAllocator.new 1000) 8 8 true).2
        (some 1024)).brk = 984 ∧
    (984 : Nat) ≠ 1040 - size_for_sbrk 8 8 := by
  decide

/-- **C3 (code bug).** After `allocate(8,8)` twice from break 1000 and a
`deallocate` of the second (tail) payload, the new `last` is the first
header (1000), but its `next` field still holds the address of the
released header (1040): `deallocate` never clears the predecessor's
`next`, so `last.next` is not the terminal null marker and the
block-list invariant is violated. -/
theorem C3_last_next_dangles_after_tail_free :
    afterTailFree.first = some 1000 ∧
    afterTailFree.last = some 1000 ∧
    lookupBlock afterTailFree.mem 1000 =
      some { size := 8, is_free := false, next := some 1040 } ∧
    (lookupBlock afterTailFree.mem 1000).map Block.next ≠ some none := by
  decide

/-- **C1.** For every `allocate(size, alignment)` with a power-of-two
alignment that returns a non-null address (and no `usize` overflow), the
returned address is a multiple of the alignment, equals
`align_up(raw_address + header_size, alignment)` — the smallest multiple
of the alignment at or above `raw_address + header_size`, where
`raw_address` is the old break returned by `sbrk` — and the header at
`returned - header_size` lies at or after `raw_address`, the grown
region `align!(header_size + size + (alignment-1))` reserving enough
slack to also hold the payload. -/
theorem C1_allocate_alignment (s : BumpAllocator) (size al : Nat)
    (hpow : ∃ k, al = 2 ^ k)
    (hof : s.brk + header_size + size + al + wordSize ≤ 2 ^ 64) :
    ∃ a, (allocate s size al true).1 = some a ∧
      a % al = 0 ∧
      a = (s.brk + header_size + al - 1) / al * al ∧
      s.brk + header_size ≤ a ∧
      s.brk ≤ a - header_size ∧
      a + size ≤ s.brk + size_for_sbrk size al := by
  obtain ⟨k, hk⟩ := hpow
  have hal1 : 1 ≤ al := hk ▸ Nat.one_le_two_pow
  have hof1 : s.brk + header_size + al ≤ 2 ^ 64 := by omega
  refine ⟨align_to (s.brk + header_size) al, allocate_true_fst s size al,
    align_to_mod _ _ _ hk hof1, align_to_eq _ _ _ hk hof1,
    le_align_to _ _ _ hk hof1, ?_, ?_⟩
  · have := le_align_to (s.brk + header_size) al k hk hof1
    omega
  · have h1 : align_to (s.brk + header_size) al ≤ s.brk + header_size + al - 1 :=
      align_to_le _ _ _ hk hof1
    have h2 : header_size + size + (al - 1) ≤ size_for_sbrk size al := by
      have hof2 : header_size + size + (al - 1) + wordSize ≤ 2 ^ 64 := by
        simp only [header_size, wordSize] at hof ⊢
        omega
      exact le_align_to _ wordSize 3 rfl hof2
    omega

/-- Witness for C1 at a concrete input: a fresh allocator with break
1000 and `allocate(100, align 16)`. -/
theorem C1_allocate_alignment_witness :
    (∃ k, (16 : Nat) = 2 ^ k) ∧
    (BumpAllocator.new 1000).brk + header_size + 100 + 16 + wordSize ≤ 2 ^ 64 ∧
    (∃ a, (allocate (BumpAllocator.new 1000) 100 16 true).1 = some a ∧
      a % 16 = 0 ∧
      a = ((BumpAllocator.new 1000).brk + header_size + 16 - 1) / 16 * 16 ∧
      (BumpAllocator.new 1000).brk + header_size ≤ a ∧
      (BumpAllocator.new 1000).brk ≤ a - header_size ∧
      a + 100 ≤ (BumpAllocator.new 1000).brk + size_for_sbrk 100 16) :=
  ⟨⟨4, by norm_num⟩, by decide,
    C1_allocate_alignment (BumpAllocator.new 1000) 100 16 ⟨4, by norm_num⟩
      (by decide)⟩

/-- The frame property claimed by C7 for freeing a non-tail block at
payload address `addr`: only the `is_free` flag of the recovered header
is set — the break, `first`, `last` and every other header (sizes and
links included) are unchanged. -/
def deallocateFrame (s : BumpAllocator) (addr : Nat) : Prop :=
  deallocate s (some addr) =
    { s with mem := setFree s.mem (addr - header_size) } ∧
  (deallocate s (some addr)).brk = s.brk ∧
  (deallocate s (some addr)).first = s.first ∧
  (deallocate s (some addr)).last = s.last ∧
  (∀ a, a ≠ addr - header_size →
    lookupBlock (deallocate s (some addr)).mem a = lookupBlock s.mem a) ∧
  lookupBlock (deallocate s (some addr)).mem (addr - header_size) =
    (lookupBlock s.mem (addr - header_size)).map
      fun b => { b with is_free := true }

/-- **C7.** For every `deallocate(pointer)` call where the recovered
block is not the tail block, the operation only sets that block's
`is_free` flag: the heap boundary is not adjusted, no block is unlinked,
and the `first` and `last` pointers are unchanged. -/
theorem C7_deallocate_non_tail_frame (s : BumpAllocator) (addr : Nat)
    (h : s.last ≠ some (addr - header_size)) :
    deallocateFrame s addr := by
  have hd : deallocate s (some addr) =
      { s with mem := setFree s.mem (addr - header_size) } := by
    simp only [deallocate]
    rw [if_pos h]
  refine ⟨hd, by rw [hd], by rw [hd], by rw [hd], ?_, ?_⟩
  · intro a ha
    rw [hd]
    exact lookupBlock_setFree_ne _ _ _ ha
  · rw [hd]
    exact lookupBlock_setFree_self _ _

/-- Witness for C7: freeing the first (non-tail) payload 1024 in the
concrete two-block state. -/
theorem C7_deallocate_non_tail_frame_witness :
    twoBlockState.last ≠ some (1024 - header_size) ∧
    deallocateFrame twoBlockState 1024 :=
  ⟨by decide, C7_deallocate_non_tail_frame twoBlockState 1024 (by decide)⟩

/-- **C9.** For `allocate(0, alignment)` with a power-of-two alignment
(and no overflow), when `sbrk` succeeds the allocator does not return a
sentinel: it grows the heap by `align!(header_size + alignment - 1)`,
appends a block whose recorded size is 0 at the tail of the list, and
returns a non-null address aligned to the requested alignment.  The
hypothesis on `last` says any current tail header lies below the break,
true in every state the code can reach. -/
theorem C9_zero_size_allocation (s : BumpAllocator) (al : Nat)
    (hpow : ∃ k, al = 2 ^ k)
    (hof : s.brk + header_size + al + wordSize ≤ 2 ^ 64)
    (hlast : ∀ l, s.last = some l → l < s.brk) :
    ∃ a, (allocate s 0 al true).1 = some a ∧
      a ≠ 0 ∧
      a % al = 0 ∧
      (allocate s 0 al true).2.brk =
        s.brk + align_word (header_size + al - 1) ∧
      (allocate s 0 al true).2.last = some (a - header_size) ∧
      lookupBlock (allocate s 0 al true).2.mem (a - header_size) =
        some { size := 0, is_free := false, next := none } := by
  obtain ⟨k, hk⟩ := hpow
  have hal1 : 1 ≤ al := hk ▸ Nat.one_le_two_pow
  have hof1 : s.brk + header_size + al ≤ 2 ^ 64 := by omega
  have hge : s.brk + header_size ≤ align_to (s.brk + header_size) al :=
    le_align_to _ _ _ hk hof1
  refine ⟨align_to (s.brk + header_size) al, allocate_true_fst s 0 al,
    ?_, align_to_mod _ _ _ hk hof1, ?_, allocate_true_last s 0 al, ?_⟩
  · have : 0 < header_size := by norm_num [header_size]
    omega
  · rw [allocate_true_brk]
    have harg : header_size + 0 + (al - 1) = header_size + al - 1 := by
      omega
    rw [size_for_sbrk, harg]
  · apply allocate_true_mem
    intro l hl
    have h1 := hlast l hl
    have h2 : 0 < header_size := by norm_num [header_size]
    omega

/-- Witness for C9: `allocate(0, align 32)` from a fresh allocator with
break 1000. -/
theorem C9_zero_size_allocation_witness :
    (∃ k, (32 : Nat) = 2 ^ k) ∧
    (BumpAllocator.new 1000).brk + header_size + 32 + wordSize ≤ 2 ^ 64 ∧
    (∀ l, (BumpAllocator.new 1000).last = some l →
      l < (BumpAllocator.new 1000).brk) ∧
    (∃ a, (allocate (BumpAllocator.new 1000) 0 32 true).1 = some a ∧
      a ≠ 0 ∧
      a % 32 = 0 ∧
      (allocate (BumpAllocator.new 1000) 0 32 true).2.brk =
        (BumpAllocator.new 1000).brk + align_word (header_size + 32 - 1) ∧
      (allocate (BumpAllocator.new 1000) 0 32 true).2.last =
        some (a - header_size) ∧
      lookupBlock (allocate (BumpAllocator.new 1000) 0 32 true).2.mem
          (a - header_size) =
        some { size := 0, is_free := false, next := none }) :=
  ⟨⟨5, by norm_num⟩, by decide, by decide,
    C9_zero_size_allocation (BumpAllocator.new 1000) 32 ⟨5, by norm_num⟩
      (by decide) (by decide)⟩

/-! ## Best-fit characterization (C4) -/

/-- Entries of an enumerated list are entries of the list. -/
theorem snd_mem_of_mem_enum {l : List Block} {q : Nat × Block}
    (h : q ∈ l.enum) : q.2 ∈ l := by
  obtain ⟨i, b⟩ := q
  exact List.get?_mem (List.mk_mem_enum_iff_get?.mp h)

/-- If no entry of `l` is free, large enough and strictly below the
running `best_size` threshold, the best-fit loop returns its
accumulator unchanged. -/
theorem bestFitLoop_of_no_candidate (size : Nat) (l : List (Nat × Block))
    (best : Option Nat) (bs : Nat)
    (h : ∀ q ∈ l, ¬(q.2.is_free = true ∧ size ≤ q.2.size ∧ q.2.size < bs)) :
    bestFitLoop size l best bs = best := by
  induction l generalizing best bs with
  | nil => rfl
  | cons hd rest ih =>
      obtain ⟨i, b⟩ := hd
      simp only [bestFitLoop]
      split
      case isTrue hc =>
        exfalso
        apply h (i, b) (List.mem_cons_self _ _)
        simpa [Bool.and_eq_true, decide_eq_true_eq, and_assoc] using hc
      case isFalse hc =>
        exact ih best bs fun q hq => h q (List.mem_cons_of_mem _ hq)

/-- The best-fit loop returns the position of the first entry attaining
the minimal qualifying size (among entries below the running
threshold). -/
theorem bestFitLoop_first_min (size : Nat) (l₁ : List (Nat × Block)) :
    ∀ (p : Nat × Block) (l₂ : List (Nat × Block)) (best : Option Nat)
      (bs : Nat),
    p.2.is_free = true → size ≤ p.2.size → p.2.size < bs →
    (∀ q ∈ l₁ ++ p :: l₂, q.2.is_free = true → size ≤ q.2.size →
      q.2.size < bs → p.2.size ≤ q.2.size) →
    (∀ q ∈ l₁, q.2.is_free = true → size ≤ q.2.size → q.2.size < bs →
      p.2.size < q.2.size) →
    bestFitLoop size (l₁ ++ p :: l₂) best bs = some p.1 := by
  induction l₁ with
  | nil =>
      intro p l₂ best bs hfree hsz hlt hmin _
      obtain ⟨i, b⟩ := p
      simp only [List.nil_append, bestFitLoop]
      split
      case isTrue hc =>
        split
        case isTrue heq => rfl
        case isFalse hne =>
          apply bestFitLoop_of_no_candidate
          intro q hq ⟨qfree, qsz, qlt⟩
          have := hmin q (List.mem_cons_of_mem _ hq) qfree qsz
            (lt_trans qlt hlt)
          simp only at this qlt
          omega
      case isFalse hc =>
        exfalso
        apply hc
        simp only at hfree hsz hlt
        simp [hfree, hsz, hlt]
  | cons hd l₁ ih =>
      intro p l₂ best bs hfree hsz hlt hmin hstrict
      obtain ⟨j, c⟩ := hd
      simp only [List.cons_append, bestFitLoop]
      split
      case isTrue hc =>
        obtain ⟨cfree, csz, clt⟩ :
            c.is_free = true ∧ size ≤ c.size ∧ c.size < bs := by
          simpa [Bool.and_eq_true, decide_eq_true_eq, and_assoc] using hc
        have hplt : p.2.size < c.size :=
          hstrict (j, c) (List.mem_cons_self _ _) cfree csz clt
        split
        case isTrue heq =>
          exfalso
          omega
        case isFalse hne =>
          apply ih p l₂ (some j) c.size hfree hsz hplt
          · intro q hq qfree qsz qlt
            exact hmin q (List.mem_cons_of_mem _ hq) qfree qsz
              (lt_trans qlt clt)
          · intro q hq qfree qsz qlt
            exact hstrict q (List.mem_cons_of_mem _ hq) qfree qsz
              (lt_trans qlt clt)
      case isFalse hc =>
        apply ih p l₂ best bs hfree hsz hlt
        · intro q hq qfree qsz qlt
          exact hmin q (List.mem_cons_of_mem _ hq) qfree qsz qlt
        · intro q hq qfree qsz qlt
          exact hstrict q (List.mem_cons_of_mem _ hq) qfree qsz qlt

/-- Any list with a qualifying entry splits at its first
minimal-qualifying entry. -/
theorem exists_first_min (size : Nat) (l : List (Nat × Block)) :
    ∀ q0 ∈ l, q0.2.is_free = true → size ≤ q0.2.size →
    ∃ l₁ p l₂, l = l₁ ++ p :: l₂ ∧ p.2.is_free = true ∧
      size ≤ p.2.size ∧
      (∀ q ∈ l, q.2.is_free = true → size ≤ q.2.size →
        p.2.size ≤ q.2.size) ∧
      (∀ q ∈ l₁, q.2.is_free = true → size ≤ q.2.size →
        p.2.size < q.2.size) := by
  induction l with
  | nil => intro q0 h; cases h
  | cons hd tl ih =>
      intro q0 hq0 hfree hsz
      by_cases htl : ∃ q ∈ tl, q.2.is_free = true ∧ size ≤ q.2.size
      · obtain ⟨q1, hq1, h1free, h1sz⟩ := htl
        obtain ⟨l₁, p, l₂, heq, pfree, psz, pmin, pstrict⟩ :=
          ih q1 hq1 h1free h1sz
        by_cases hhd : hd.2.is_free = true ∧ size ≤ hd.2.size ∧
            hd.2.size ≤ p.2.size
        · refine ⟨[], hd, tl, rfl, hhd.1, hhd.2.1, ?_,
            fun q hq => absurd hq (List.not_mem_nil q)⟩
          intro q hq qfree qsz
          rcases List.mem_cons.mp hq with h | h
          · subst h; exact le_refl _
          · exact le_trans hhd.2.2 (pmin q h qfree qsz)
        · refine ⟨hd :: l₁, p, l₂, by rw [heq]; rfl, pfree, psz, ?_, ?_⟩
          · intro q hq qfree qsz
            rcases List.mem_cons.mp hq with h | h
            · subst h
              have : p.2.size < q.2.size := by
                rcases not_and_or.mp hhd with h1 | h1
                · exact absurd qfree h1
                · rcases not_and_or.mp h1 with h2 | h2
                  · exact absurd qsz h2
                  · omega
              exact le_of_lt this
            · exact pmin q h qfree qsz
          · intro q hq qfree qsz
            rcases List.mem_cons.mp hq with h | h
            · subst h
              rcases not_and_or.mp hhd with h1 | h1
              · exact absurd qfree h1
              · rcases not_and_or.mp h1 with h2 | h2
                · exact absurd qsz h2
                · omega
            · exact pstrict q h qfree qsz
      · have hq0hd : q0 = hd := by
          rcases List.mem_cons.mp hq0 with h | h
          · exact h
          · exact absurd ⟨q0, h, hfree, hsz⟩ htl
        subst hq0hd
        refine ⟨[], q0, tl, rfl, hfree, hsz, ?_,
          fun q hq => absurd hq (List.not_mem_nil q)⟩
        intro q hq qfree qsz
        rcases List.mem_cons.mp hq with h | h
        · subst h; exact le_refl _
        · exact absurd ⟨q, h, qfree, qsz⟩ htl

/-- The best-fit behaviour claimed by C4 (with the `usize::MAX`
candidate-size restriction the code imposes): failure sentinel exactly
when no free block qualifies, otherwise the first block at the minimal
qualifying size. -/
def bestFitSpec (blocks : List Block) (size : Nat) : Prop :=
  ((∀ b ∈ blocks, ¬(b.is_free = true ∧ size ≤ b.size)) →
      find_free_block_best_fit blocks size = none) ∧
  (∀ b₀ ∈ blocks, b₀.is_free = true → size ≤ b₀.size →
    ∃ i b, find_free_block_best_fit blocks size = some i ∧
      blocks.get? i = some b ∧ b.is_free = true ∧ size ≤ b.size ∧
      (∀ c ∈ blocks, c.is_free = true → size ≤ c.size →
        b.size ≤ c.size) ∧
      (∀ j c, j < i → blocks.get? j = some c → c.is_free = true →
        size ≤ c.size → b.size < c.size))

/-- **C4 (amended).** For every block list *whose block sizes are all
below `usize::MAX`* and requested size, best-fit returns the smallest
free block with `size ≥ requested` — the first such block when several
tie — and the null sentinel when no free block qualifies; in particular
on free blocks of sizes 128, 256, 110, 64 a request of 100 selects the
110 block (position 2).  (Without the size bound the claim fails: see
the counterexample.) -/
theorem C4_best_fit_characterization (blocks : List Block) (size : Nat)
    (hmax : ∀ b ∈ blocks, b.size < usizeMax) :
    bestFitSpec blocks size ∧
    find_free_block_best_fit
      [{ size := 128, is_free := true, next := none },
       { size := 256, is_free := true, next := none },
       { size := 110, is_free := true, next := none },
       { size := 64, is_free := true, next := none }] 100 = some 2 := by
  constructor
  · constructor
    · intro hnone
      apply bestFitLoop_of_no_candidate
      intro q hq ⟨qfree, qsz, _⟩
      exact hnone q.2 (snd_mem_of_mem_enum hq) ⟨qfree, qsz⟩
    · intro b₀ hb₀ h0free h0sz
      obtain ⟨i0, hi0⟩ := List.mem_iff_get?.mp hb₀
      have hq0 : (i0, b₀) ∈ blocks.enum := List.mk_mem_enum_iff_get?.mpr hi0
      obtain ⟨l₁, p, l₂, heq, pfree, psz, pmin, pstrict⟩ :=
        exists_first_min size blocks.enum (i0, b₀) hq0 h0free h0sz
      have hpmem : p ∈ blocks.enum := by
        rw [heq]; exact List.mem_append_right _ (List.mem_cons_self _ _)
      have hpblocks : p.2 ∈ blocks := snd_mem_of_mem_enum hpmem
      have hplt : p.2.size < usizeMax := hmax _ hpblocks
      have hrun : find_free_block_best_fit blocks size = some p.1 := by
        rw [find_free_block_best_fit, heq]
        apply bestFitLoop_first_min size l₁ p l₂ none usizeMax pfree psz
          hplt
        · intro q hq qfree qsz _
          exact pmin q (heq ▸ hq) qfree qsz
        · intro q hq qfree qsz _
          exact pstrict q hq qfree qsz
      have hpget : blocks.get? p.1 = some p.2 := by
        have : (p.1, p.2) ∈ blocks.enum := hpmem
        exact List.mk_mem_enum_iff_get?.mp this
      have hidx : p.1 = l₁.length := by
        have h1 : blocks.enum.get? l₁.length = some p := by
          rw [heq, List.get?_append_right (le_refl _)]
          simp
        have h2 : blocks.enum.get? l₁.length =
            (blocks.get? l₁.length).map fun a => (l₁.length, a) :=
          List.get?_enum _ _
        rw [h1] at h2
        cases hbg : blocks.get? l₁.length with
        | none => rw [hbg] at h2; simp at h2
        | some bb =>
            rw [hbg] at h2
            simp at h2
            simp [h2]
      refine ⟨p.1, p.2, hrun, hpget, pfree, psz, ?_, ?_⟩
      · intro c hc cfree csz
        obtain ⟨jc, hjc⟩ := List.mem_iff_get?.mp hc
        exact pmin (jc, c) (List.mk_mem_enum_iff_get?.mpr hjc) cfree csz
      · intro j c hj hjget cfree csz
        have hjenum : blocks.enum.get? j = some (j, c) := by
          rw [List.get?_enum, hjget]
          rfl
        have hjl₁ : (j, c) ∈ l₁ := by
          have hlt : j < l₁.length := by omega
          rw [heq, List.get?_append hlt] at hjenum
          exact List.get?_mem hjenum
        exact pstrict (j, c) hjl₁ cfree csz
  · decide

/-- Witness for C4 at the spec's own concrete instance: free blocks of
sizes 128, 256, 110, 64 and a request of 100. -/
theorem C4_best_fit_characterization_witness :
    (∀ b ∈ [Block.mk 128 true none, Block.mk 256 true none,
            Block.mk 110 true none, Block.mk 64 true none],
      b.size < usizeMax) ∧
    bestFitSpec
      [Block.mk 128 true none, Block.mk 256 true none,
       Block.mk 110 true none, Block.mk 64 true none] 100 :=
  ⟨by decide,
    (C4_best_fit_characterization
      [Block.mk 128 true none, Block.mk 256 true none,
       Block.mk 110 true none, Block.mk 64 true none] 100 (by decide)).1⟩

/-- **C4 counterexample.** The claim as stated is false on the code: a
single free block of size `usize::MAX` qualifies for a request of 0, yet
best-fit returns the null sentinel, because the strict comparison
against the initial `best_size = usize::MAX` can never admit it. -/
theorem C4_counterexample :
    (∃ b ∈ [Block.mk usizeMax true none],
      b.is_free = true ∧ 0 ≤ b.size) ∧
    find_free_block_best_fit [Block.mk usizeMax true none] 0 = none := by
  constructor
  · exact ⟨Block.mk usizeMax true none, List.mem_cons_self _ _, rfl,
      Nat.zero_le _⟩
  · decide

/-! ## Next-fit characterization (C5) -/

/-- The scanning loop returns the position of the first qualifying
entry. -/
theorem scanLoop_eq_find? (size : Nat) (l : List (Nat × Block)) :
    scanLoop size l = (l.find? fun q => fits size q.2).map Prod.fst := by
  induction l with
  | nil => rfl
  | cons q rest ih =>
      obtain ⟨i, b⟩ := q
      by_cases h : fits size b = true
      · simp [scanLoop, h, List.find?_cons_of_pos]
      · simp only [Bool.not_eq_true] at h
        simp [scanLoop, h, List.find?_cons_of_neg, ih]

/-- `find?` over an append searches the left list first. -/
theorem find?_append {α : Type} (l₁ l₂ : List α) (p : α → Bool) :
    (l₁ ++ l₂).find? p = (l₁.find? p).orElse fun _ => l₂.find? p := by
  induction l₁ with
  | nil => rfl
  | cons a rest ih =>
      by_cases h : p a = true
      · simp [List.find?_cons_of_pos, h]
      · simp only [Bool.not_eq_true] at h
        simp [List.find?_cons_of_neg, h, ih]

/-- **C5.** For every block list, cursor state and requested size,
next-fit scans from `last_search` (position 0, i.e. `first`, when the
cursor is unset) to the end of the list, then wraps and scans from the
head up to but not including the starting block; it returns the first
free block of sufficient size in that order (the `find?` of the rotated
enumeration), sets `last_search` to the returned block exactly when the
search succeeds, and leaves `last_search` unchanged when it fails. -/
theorem C5_next_fit_characterization (blocks : List Block)
    (cursor : Option Nat) (size : Nat) :
    (find_free_block_next_fit blocks cursor size).1 =
      ((blocks.enum.drop (cursor.getD 0) ++
          blocks.enum.take (cursor.getD 0)).find?
        fun q => fits size q.2).map Prod.fst ∧
    ((find_free_block_next_fit blocks cursor size).1 = none →
      (find_free_block_next_fit blocks cursor size).2 = cursor) ∧
    (∀ i, (find_free_block_next_fit blocks cursor size).1 = some i →
      (find_free_block_next_fit blocks cursor size).2 = some i) := by
  have happ := find?_append (blocks.enum.drop (cursor.getD 0))
    (blocks.enum.take (cursor.getD 0)) (fun q => fits size q.2)
  have hd := scanLoop_eq_find? size (blocks.enum.drop (cursor.getD 0))
  have ht := scanLoop_eq_find? size (blocks.enum.take (cursor.getD 0))
  cases h1 : scanLoop size (blocks.enum.drop (cursor.getD 0)) with
  | some i =>
      have hr : find_free_block_next_fit blocks cursor size =
          (some i, some i) := by
        simp [find_free_block_next_fit, h1]
      rw [h1] at hd
      obtain ⟨q, hq, hq1⟩ : ∃ q, (blocks.enum.drop (cursor.getD 0)).find?
          (fun q => fits size q.2) = some q ∧ q.1 = i := by
        cases hf : (blocks.enum.drop (cursor.getD 0)).find?
            (fun q => fits size q.2) with
        | none => rw [hf] at hd; simp at hd
        | some q => rw [hf] at hd; simp at hd; exact ⟨q, rfl, hd.symm⟩
      refine ⟨?_, ?_, ?_⟩
      · rw [hr, happ, hq]
        simp [hq1]
      · intro hn; rw [hr] at hn; simp at hn
      · intro j hj; rw [hr] at hj ⊢; simp at hj ⊢; omega
  | none =>
      rw [h1] at hd
      have hdnone : (blocks.enum.drop (cursor.getD 0)).find?
          (fun q => fits size q.2) = none := by
        cases hf : (blocks.enum.drop (cursor.getD 0)).find?
            (fun q => fits size q.2) with
        | none => rfl
        | some q => rw [hf] at hd; simp at hd
      cases h2 : scanLoop size (blocks.enum.take (cursor.getD 0)) with
      | some i =>
          have hr : find_free_block_next_fit blocks cursor size =
              (some i, some i) := by
            simp [find_free_block_next_fit, h1, h2]
          rw [h2] at ht
          obtain ⟨q, hq, hq1⟩ : ∃ q,
              (blocks.enum.take (cursor.getD 0)).find?
                (fun q => fits size q.2) = some q ∧ q.1 = i := by
            cases hf : (blocks.enum.take (cursor.getD 0)).find?
                (fun q => fits size q.2) with
            | none => rw [hf] at ht; simp at ht
            | some q => rw [hf] at ht; simp at ht; exact ⟨q, rfl, ht.symm⟩
          refine ⟨?_, ?_, ?_⟩
          · rw [hr, happ, hdnone, hq]
            simp [hq1]
          · intro hn; rw [hr] at hn; simp at hn
          · intro j hj; rw [hr] at hj ⊢; simp at hj ⊢; omega
      | none =>
          have htnone : (blocks.enum.take (cursor.getD 0)).find?
              (fun q => fits size q.2) = none := by
            rw [h2] at ht
            cases hf : (blocks.enum.take (cursor.getD 0)).find?
                (fun q => fits size q.2) with
            | none => rfl
            | some q => rw [hf] at ht; simp at ht
          have hr : find_free_block_next_fit blocks cursor size =
              (none, cursor) := by
            simp [find_free_block_next_fit, h1, h2]
          refine ⟨?_, ?_, ?_⟩
          · rw [hr, happ, hdnone, htnone]
            rfl
          · intro _; rw [hr]
          · intro j hj; rw [hr] at hj; simp at hj

/-! ## Address monotonicity (C8) -/

/-- The addresses returned by a sequence of `allocate` calls in which
every `sbrk` request is granted (the boundary model grants each request
at the current break and only moves it forward, as the claim assumes). -/
def allocAddrs : BumpAllocator → List (Nat × Nat) → List Nat
  | _, [] => []
  | s, (sz, al) :: rest =>
      match allocate s sz al true with
      | (some a, s1) => a :: allocAddrs s1 rest
      | (none, s1) => allocAddrs s1 rest

/-- A per-request byte budget strictly above what the request can
reserve; summing it gives a convenient no-overflow precondition. -/
def reserveBound (p : Nat × Nat) : Nat :=
  header_size + p.1 + p.2 + wordSize

/-- `size_for_sbrk` is squeezed between the requested worst case and the
next word boundary. -/
theorem size_for_sbrk_bounds (sz al : Nat) (hal : 1 ≤ al)
    (hof : header_size + sz + al + wordSize ≤ 2 ^ 64) :
    header_size + sz + (al - 1) ≤ size_for_sbrk sz al ∧
    size_for_sbrk sz al ≤ header_size + sz + (al - 1) + (wordSize - 1) := by
  have hof8 : header_size + sz + (al - 1) + wordSize ≤ 2 ^ 64 := by
    omega
  constructor
  · exact le_align_to _ wordSize 3 rfl hof8
  · have h := align_to_le (header_size + sz + (al - 1)) wordSize 3 rfl hof8
    simp only [size_for_sbrk, align_word]
    simp only [wordSize] at h ⊢
    omega

/-- Every address produced by `allocAddrs` is at or above the starting
break. -/
theorem allocAddrs_lower (reqs : List (Nat × Nat)) :
    ∀ (s : BumpAllocator),
    (∀ p ∈ reqs, ∃ k, p.2 = 2 ^ k) →
    s.brk + (reqs.map reserveBound).sum ≤ 2 ^ 64 →
    ∀ a ∈ allocAddrs s reqs, s.brk ≤ a := by
  induction reqs with
  | nil => intro s _ _ a ha; cases ha
  | cons req rest ih =>
      intro s hpow hof a ha
      obtain ⟨sz, al⟩ := req
      obtain ⟨k, hk0⟩ := hpow (sz, al) (List.mem_cons_self _ _)
      have hk : al = 2 ^ k := hk0
      have hal1 : 1 ≤ al := by rw [hk]; exact Nat.one_le_two_pow
      have hsum : (((sz, al) :: rest).map reserveBound).sum =
          header_size + sz + al + wordSize +
            (rest.map reserveBound).sum := by
        simp [reserveBound]
      rw [hsum] at hof
      have hof1 : s.brk + header_size + al ≤ 2 ^ 64 := by omega
      have hA : allocate s sz al true =
          ((allocate s sz al true).1, (allocate s sz al true).2) := rfl
      rw [allocate_true_fst s sz al] at hA
      simp only [allocAddrs] at ha
      rw [hA] at ha
      simp only [List.mem_cons] at ha
      have hbounds := size_for_sbrk_bounds sz al hal1 (by omega)
      have hbrk1 : (allocate s sz al true).2.brk =
          s.brk + size_for_sbrk sz al := allocate_true_brk s sz al
      rcases ha with rfl | ha
      · calc s.brk ≤ s.brk + header_size := Nat.le_add_right _ _
          _ ≤ align_to (s.brk + header_size) al :=
            le_align_to _ _ _ hk hof1
      · have hofr : (allocate s sz al true).2.brk +
            (rest.map reserveBound).sum ≤ 2 ^ 64 := by
          rw [hbrk1]
          omega
        have := ih (allocate s sz al true).2
          (fun p hp => hpow p (List.mem_cons_of_mem _ hp)) hofr a ha
        omega

/-- **C8.** For every sequence of successful `allocate` calls (each
`sbrk` grant placed at the current boundary, the boundary only moving
forward) with power-of-two alignments and no `usize` overflow, the
sequence of returned addresses is monotonically non-decreasing. -/
theorem C8_allocate_addresses_monotonic (reqs : List (Nat × Nat)) :
    ∀ (s : BumpAllocator),
    (∀ p ∈ reqs, ∃ k, p.2 = 2 ^ k) →
    s.brk + (reqs.map reserveBound).sum ≤ 2 ^ 64 →
    List.Sorted (· ≤ ·) (allocAddrs s reqs) := by
  induction reqs with
  | nil => intro s _ _; exact List.sorted_nil
  | cons req rest ih =>
      intro s hpow hof
      obtain ⟨sz, al⟩ := req
      obtain ⟨k, hk0⟩ := hpow (sz, al) (List.mem_cons_self _ _)
      have hk : al = 2 ^ k := hk0
      have hal1 : 1 ≤ al := by rw [hk]; exact Nat.one_le_two_pow
      have hsum : (((sz, al) :: rest).map reserveBound).sum =
          header_size + sz + al + wordSize +
            (rest.map reserveBound).sum := by
        simp [reserveBound]
      rw [hsum] at hof
      have hof1 : s.brk + header_size + al ≤ 2 ^ 64 := by omega
      have hbounds := size_for_sbrk_bounds sz al hal1 (by omega)
      have hbrk1 : (allocate s sz al true).2.brk =
          s.brk + size_for_sbrk sz al := allocate_true_brk s sz al
      have hofr : (allocate s sz al true).2.brk +
          (rest.map reserveBound).sum ≤ 2 ^ 64 := by
        rw [hbrk1]
        omega
      have hpowr : ∀ p ∈ rest, ∃ j, p.2 = 2 ^ j :=
        fun p hp => hpow p (List.mem_cons_of_mem _ hp)
      have hA : allocate s sz al true =
          ((allocate s sz al true).1, (allocate s sz al true).2) := rfl
      rw [allocate_true_fst s sz al] at hA
      simp only [allocAddrs]
      rw [hA]
      rw [List.sorted_cons]
      constructor
      · intro b hb
        have hlow := allocAddrs_lower rest (allocate s sz al true).2
          hpowr hofr b hb
        rw [hbrk1] at hlow
        have hle : align_to (s.brk + header_size) al ≤
            s.brk + header_size + al - 1 := align_to_le _ _ _ hk hof1
        omega
      · exact ih (allocate s sz al true).2 hpowr hofr

/-- Witness for C8: three successful allocations
`(8,8), (16,16), (100,32)` from a fresh allocator with break 1000. -/
theorem C8_allocate_addresses_monotonic_witness :
    (∀ p ∈ [((8 : Nat), (8 : Nat)), (16, 16), (100, 32)],
      ∃ k, p.2 = 2 ^ k) ∧
    (BumpAllocator.new 1000).brk +
      ([((8 : Nat), (8 : Nat)), (16, 16), (100, 32)].map
        reserveBound).sum ≤ 2 ^ 64 ∧
    List.Sorted (· ≤ ·) (allocAddrs (BumpAllocator.new 1000)
      [((8 : Nat), (8 : Nat)), (16, 16), (100, 32)]) := by
  have hpow : ∀ p ∈ [((8 : Nat), (8 : Nat)), (16, 16), (100, 32)],
      ∃ k, p.2 = 2 ^ k := by
    intro p hp
    fin_cases hp
    · exact ⟨3, rfl⟩
    · exact ⟨4, rfl⟩
    · exact ⟨5, rfl⟩
  exact ⟨hpow, by decide,
    C8_allocate_addresses_monotonic _ _ hpow (by decide)⟩

end Rallocator
